import Mathlib

/-!
Shallow embedding of `nbjoiner` (src/main.rs): an in-memory relation type with a
hash equi-join, an undirected join graph, and a join-order planner.

Modelling conventions:
* `Vec<T>` is `List T`, `i64` is `Int` (no arithmetic is performed on values,
  only equality, so overflow cannot occur), `String` is `String`.
* The `HashMap<Vec<i64>, Vec<&Vec<i64>>>` used by the join is modelled as a
  function `List Int → Option (List (List Int))` built by folding the
  `entry(..).or_insert_with(Vec::new).push(row)` updates over `self.data`;
  the map is only ever read through `get`, never iterated, so this captures
  its behaviour exactly.
* `HashSet<usize>` (the planner's `remaining` set) is modelled as a duplicate
  free `List Nat`; the nondeterministic `remaining.iter().next()` seed pick is
  modelled by an explicit `choose` function supplied by the caller, and the
  `while` loops of `Planner::plan` are modelled with explicit fuel, returning
  `none` when the fuel runs out.
* Rust slice indexing `row[*i]` (which panics when out of range) is modelled
  as `List.getD _ _ 0`; every theorem below only evaluates it in bounds.
-/

/-- Embeds `struct Relation { col_names: Vec<String>, data: Vec<Vec<i64>> }`. -/
structure Relation where
  col_names : List String
  data : List (List Int)
deriving DecidableEq

/-- Embeds `#[derive(Default)]` for `Relation`: both vectors empty. -/
instance : Inhabited Relation := ⟨⟨[], []⟩⟩

/-- Embeds `Relation::new`: the given column names and no rows. -/
def Relation.new (col_names : List String) : Relation := ⟨col_names, []⟩

/-- Embeds `Relation::new_with_data`: stores the column names and the rows as
supplied, with no validation of row lengths. -/
def Relation.new_with_data (col_names : List String) (data : List (List Int)) : Relation :=
  ⟨col_names, data⟩

/-- Embeds `Relation::row`: appends one row, with no validation of its length. -/
def Relation.row (self : Relation) (r : List Int) : Relation :=
  ⟨self.col_names, self.data ++ [r]⟩

/-- Embeds `Relation::rows`: replaces the stored rows wholesale. -/
def Relation.rows (self : Relation) (rs : List (List Int)) : Relation :=
  ⟨self.col_names, rs⟩

/-- Embeds the `common_cols` computation of `Relation::join`: `self`'s column
names that also occur in `other`, in `self` order. -/
def Relation.commonCols (self other : Relation) : List String :=
  self.col_names.filter fun col => other.col_names.contains col

/-- Embeds the `output_cols` computation of `Relation::join`: all of `self`'s
columns, then `other`'s columns not occurring among `self`'s. -/
def Relation.outputCols (self other : Relation) : List String :=
  self.col_names ++ other.col_names.filter fun c => ! self.col_names.contains c

/-- Embeds the `left_key` computation of `Relation::join`: the position of each
common column within `self.col_names` (`position(..).unwrap()` always succeeds
because every common column is one of `self`'s columns). -/
def Relation.leftKey (self other : Relation) : List Nat :=
  (self.commonCols other).map fun col => self.col_names.indexOf col

/-- Embeds the `right_key` computation of `Relation::join`: the position of each
common column within `other.col_names`. -/
def Relation.rightKey (self other : Relation) : List Nat :=
  (self.commonCols other).map fun col => other.col_names.indexOf col

/-- Embeds `left_key.iter().map(|i| row[*i]).collect()`: the composite key of a
row at the given positions (out-of-range positions, a Rust panic, give 0;
all uses below are in bounds). -/
def rowKey (keyIdx : List Nat) (row : List Int) : List Int :=
  keyIdx.map fun i => row.getD i 0

/-- Embeds the `table` build loop of `Relation::join`: folds
`table.entry(key).or_insert_with(Vec::new).push(row)` over `data`, giving the
lookup function of the resulting `HashMap`. -/
def buildTable (key : List Int → List Int) (data : List (List Int)) :
    List Int → Option (List (List Int)) :=
  data.foldl
    (fun m row => fun k => if k = key row then some ((m k).getD [] ++ [row]) else m k)
    (fun _ => none)

/-- Embeds `Relation::join`: builds the hash table over `self.data`, probes it
with each row of `other.data`, and emits, per match, the matched `self` row
followed by `other`'s row values at positions outside the right key. -/
def Relation.join (self other : Relation) : Relation :=
  let left_key := self.leftKey other
  let right_key := self.rightKey other
  let table := buildTable (rowKey left_key) self.data
  let result := other.data.flatMap fun row =>
    match table (rowKey right_key row) with
    | none => []
    | some rows => rows.map fun left_row =>
        left_row ++ ((row.enum.filter fun p => ! right_key.contains p.1).map Prod.snd)
  Relation.new_with_data (self.outputCols other) result

/-- Embeds `struct Graph { edges: Vec<Vec<usize>> }`. -/
structure Graph where
  edges : List (List Nat)
deriving DecidableEq

/-- Embeds `#[derive(Default)]` for `Graph`. -/
instance : Inhabited Graph := ⟨⟨[]⟩⟩

/-- Embeds `Graph::edge`: pads `edges` with empty lists up to index
`max a b`, then appends `b` to `a`'s list and `a` to `b`'s list. -/
def Graph.edge (g : Graph) (a b : Nat) : Graph :=
  let es := g.edges ++ List.replicate (Nat.max a b + 1 - g.edges.length) []
  let es1 := es.set a (es.getD a [] ++ [b])
  let es2 := es1.set b (es1.getD b [] ++ [a])
  ⟨es2⟩

/-- Embeds `Graph::neighbours`: the adjacency list of `v`, or `[]` when `v` is
out of range. -/
def Graph.neighbours (g : Graph) (v : Nat) : List Nat :=
  g.edges.getD v []

/-- Embeds `struct Planner { joined_tables: Vec<Relation>, query_graph: Graph }`. -/
structure Planner where
  joined_tables : List Relation
  query_graph : Graph

/-- Embeds `#[derive(Default)]` for `Planner`. -/
instance : Inhabited Planner := ⟨⟨[], ⟨[]⟩⟩⟩

/-- Embeds the sharing test of `Planner::join`:
`rel.col_names.iter().any(|c| t_cols.contains(c))` where `t_cols` is the set of
`t`'s column names. -/
def sharesB (rel t : Relation) : Bool :=
  rel.col_names.any fun c => t.col_names.contains c

/-- Embeds `Planner::join`: adds an edge between the new relation's position
(`joined_tables.len()`) and every already-present relation sharing a column
name with it, then appends the new relation. -/
def Planner.join (self : Planner) (rel : Relation) : Planner :=
  { joined_tables := self.joined_tables ++ [rel],
    query_graph := self.joined_tables.enum.foldl
      (fun g it => if sharesB rel it.2 then g.edge self.joined_tables.length it.1 else g)
      self.query_graph }

/-- Builds a planner by folding `Planner::join` over a list of relations,
starting from `Planner::default()`, exactly as `main` does. -/
def mkPlanner (rels : List Relation) : Planner :=
  rels.foldl Planner.join (Planner.mk [] (Graph.mk []))

/-- Embeds the traversal loops of `Planner::plan` as one fueled step function.
State: `remaining` (the not-yet-planned positions, a set), `frontier` (the
stack, head = top), `plan` (the output order so far).  An empty frontier with
nonempty `remaining` seeds the frontier with `choose remaining` (the arbitrary
`remaining.iter().next()` of the source); otherwise the top of the frontier is
popped, removed from `remaining` and appended to `plan` unconditionally (the
source has no membership check on pop), and its neighbours still in
`remaining` are pushed in adjacency order.  Returns `none` when out of fuel. -/
def planStep (g : Graph) (choose : List Nat → Nat) :
    Nat → List Nat → List Nat → List Nat → Option (List Nat)
  | 0, _, _, _ => none
  | fuel + 1, remaining, frontier, plan =>
    match frontier with
    | [] =>
      match remaining with
      | [] => some plan
      | _ :: _ => planStep g choose fuel remaining [choose remaining] plan
    | r :: rest =>
      let remaining2 := remaining.erase r
      let pushed := (g.neighbours r).filter fun n => remaining2.contains n
      planStep g choose fuel remaining2 (pushed.reverse ++ rest) (plan ++ [r])

/-- Embeds the traversal of `Planner::plan`: the order of positions produced
from the initial state `remaining = {0, .., len-1}`, empty frontier, empty
plan. -/
def Planner.planIndices (self : Planner) (choose : List Nat → Nat) (fuel : Nat) :
    Option (List Nat) :=
  planStep self.query_graph choose fuel (List.range self.joined_tables.length) [] []

/-- Embeds the final `map(|i| std::mem::take(&mut self.joined_tables[i]))` of
`Planner::plan`: each index takes the current value at that position and leaves
`Relation::default()` behind, so a repeated index yields the default relation. -/
def takeAll (tables : List Relation) (idxs : List Nat) : List Relation :=
  (idxs.foldl (fun acc i => (acc.1 ++ [acc.2.getD i default], acc.2.set i default))
    (([] : List Relation), tables)).1

/-- Embeds `Planner::plan` end to end: the planned positions mapped through the
take-out of `joined_tables`. -/
def Planner.plan (self : Planner) (choose : List Nat → Nat) (fuel : Nat) :
    Option (List Relation) :=
  (self.planIndices choose fuel).map (takeAll self.joined_tables)

/-- Two relations share at least one column name (the spec's edge condition). -/
def sharesColumn (r t : Relation) : Prop := ∃ c, c ∈ r.col_names ∧ c ∈ t.col_names

/-- Shape invariant of the spec: every row's length equals the column count. -/
def Relation.wellFormed (self : Relation) : Prop :=
  ∀ row ∈ self.data, row.length = self.col_names.length

instance (self : Relation) : Decidable self.wellFormed :=
  List.decidableBAll _ _

/-- A seed-choice function is valid when it returns an element of its (nonempty)
argument, as `remaining.iter().next()` does. -/
def validChoose (choose : List Nat → Nat) : Prop := ∀ l, l ≠ [] → choose l ∈ l

/-- Graph reachability along adjacency lists; for the planner's (symmetric)
graph this is the "same connected component" relation of the spec. -/
def Graph.reaches (g : Graph) (a b : Nat) : Prop :=
  Relation.ReflTransGen (fun x y => y ∈ g.neighbours x) a b

/-- Plan validity property of a position sequence: every entry either follows
some earlier entry it is adjacent to in the join graph, or no earlier entry is
in its connected component (it is the first of its component). -/
def planGood (g : Graph) (plan : List Nat) : Prop :=
  ∀ k, k < plan.length →
    (∃ j, j < k ∧ plan.getD k 0 ∈ g.neighbours (plan.getD j 0)) ∨
    (∀ j, j < k → ¬ g.reaches (plan.getD j 0) (plan.getD k 0))

/-- Modelled from the spec: two rows agree on every shared column name
("r and s agree on every shared column name", shared = occurring in both
relations' column lists, value read at the column's first position). -/
def agreesOnShared (R S : Relation) (r s : List Int) : Prop :=
  ∀ c, c ∈ R.col_names → c ∈ S.col_names →
    r.getD (R.col_names.indexOf c) 0 = s.getD (S.col_names.indexOf c) 0

instance (R S : Relation) (r s : List Int) : Decidable (agreesOnShared R S r s) :=
  List.decidableBAll _ _

/-- Modelled from the spec: "s's values at non-shared column positions" — the
values of row `s` at the positions of `S` whose column name does not occur in
`R`. -/
def nonSharedVals (R S : Relation) (s : List Int) : List Int :=
  (s.enum.filter fun p => decide ((S.col_names.getD p.1 "") ∉ R.col_names)).map Prod.snd

/-- Modelled from the spec: the inner-join result set — for each row `r` of `R`
and each row `s` of `S` agreeing with it on every shared column name, `r`'s
full values followed by `s`'s values at non-shared column positions. -/
def joinSpecRows (R S : Relation) : List (List Int) :=
  R.data.flatMap fun r =>
    (S.data.filter fun s => decide (agreesOnShared R S r s)).map fun s =>
      r ++ nonSharedVals R S s

/-! ## Characterization of the hash-table build and of the join's row list -/

/-- Folding the `entry(..).push(row)` update over `data` from an arbitrary map
`m`: looking up `k` afterwards yields `m k` when no row of `data` has key `k`,
and otherwise the rows of `m k` followed by the rows of `data` with key `k`,
in order. -/
theorem buildTable_foldl (key : List Int → List Int) (data : List (List Int))
    (m : List Int → Option (List (List Int))) (k : List Int) :
    data.foldl
      (fun m row => fun k2 => if k2 = key row then some ((m k2).getD [] ++ [row]) else m k2)
      m k =
      (if (data.filter fun row => decide (key row = k)) = [] then m k
       else some ((m k).getD [] ++ data.filter fun row => decide (key row = k))) := by
  induction data generalizing m with
  | nil => simp
  | cons row rest ih =>
    simp only [List.foldl_cons, List.filter_cons]
    rw [ih]
    by_cases h : key row = k
    · by_cases hrest : (rest.filter fun row2 => decide (key row2 = k)) = []
      · simp only [h]
        simp [hrest]
      · simp only [h]
        simp [hrest, List.append_assoc]
    · have hk : ¬ k = key row := fun hkk => h hkk.symm
      simp [h, hk]

/-- Lookup characterization of `buildTable`: `none` when no row has the key,
otherwise all rows with that key in their original order. -/
theorem buildTable_eq (key : List Int → List Int) (data : List (List Int)) (k : List Int) :
    buildTable key data k =
      (if (data.filter fun row => decide (key row = k)) = [] then none
       else some (data.filter fun row => decide (key row = k))) := by
  unfold buildTable
  rw [buildTable_foldl]
  simp

/-- Row list of the join: for each row of `other` in order, the rows of `self`
whose left key equals its right key, in `self.data` order, formatted as the
`self` row followed by `other`'s values outside the right-key positions. -/
theorem Relation.join_data (self other : Relation) :
    (self.join other).data =
      other.data.flatMap fun srow =>
        (self.data.filter fun lrow =>
            decide (rowKey (self.leftKey other) lrow = rowKey (self.rightKey other) srow)).map
          fun lrow =>
            lrow ++ ((srow.enum.filter fun p => ! (self.rightKey other).contains p.1).map Prod.snd) := by
  show (other.data.flatMap _) = _
  refine List.flatMap_congr fun srow _ => ?_
  rw [buildTable_eq]
  by_cases h :
      (self.data.filter fun lrow =>
        decide (rowKey (self.leftKey other) lrow = rowKey (self.rightKey other) srow)) = []
  · simp [h]
  · simp [h]

/-- Column list of the join is `outputCols`, definitionally. -/
theorem Relation.join_col_names (self other : Relation) :
    (self.join other).col_names = self.outputCols other := rfl

/-! ## Claim C2: shape validation at construction and append -/

/-- C2 counterexample: `Relation::new_with_data` accepts a row of length 1
against 2 declared columns — it does not fail, truncate or pad, and likewise
`Relation::row` appends a row of the wrong length unchanged; the resulting
relation violates the shape invariant, so no rejection happened. -/
theorem c2_counterexample :
    (Relation.new_with_data ["a", "b"] [[1]]).data = [[1]] ∧
    ((Relation.new ["a"]).row [1, 2, 3]).data = [[1, 2, 3]] ∧
    ¬ (Relation.new_with_data ["a", "b"] [[1]]).wellFormed := by
  refine ⟨rfl, rfl, fun h => ?_⟩
  have h1 := h [1] (by simp [Relation.new_with_data])
  simp [Relation.new_with_data] at h1

/-- C2 amended: construction with row data and row append perform no
validation at all — they store the supplied column names and rows verbatim
(in particular they never truncate or pad a row), succeeding on every input,
well-formed or not. -/
theorem c2_no_validation (cols : List String) (data : List (List Int))
    (rel : Relation) (r : List Int) :
    (Relation.new_with_data cols data).col_names = cols ∧
    (Relation.new_with_data cols data).data = data ∧
    (rel.row r).col_names = rel.col_names ∧
    (rel.row r).data = rel.data ++ [r] :=
  ⟨rfl, rfl, rfl, rfl⟩

/-! ## Claim C5: output column sequence of the join -/

/-- C5 counterexample: with duplicated column names (which the data model
permits) the join's output column sequence contains duplicates. -/
theorem c5_counterexample :
    ((Relation.new ["a", "a"]).join (Relation.new ["b"])).col_names = ["a", "a", "b"] ∧
    ¬ ((Relation.new ["a", "a"]).join (Relation.new ["b"])).col_names.Nodup := by
  exact ⟨rfl, by decide⟩

/-- C5 amended: for relations whose column names are duplicate-free, the
join's column sequence is `R`'s columns followed by the columns of `S` not
occurring among `R`'s (in first-occurrence order), and has no duplicates. -/
theorem c5_output_columns (R S : Relation)
    (hR : R.col_names.Nodup) (hS : S.col_names.Nodup) :
    (R.join S).col_names =
      R.col_names ++ S.col_names.filter (fun c => decide (c ∉ R.col_names)) ∧
    (R.join S).col_names.Nodup := by
  have hcols : (R.join S).col_names =
      R.col_names ++ S.col_names.filter (fun c => decide (c ∉ R.col_names)) := by
    rw [Relation.join_col_names]
    unfold Relation.outputCols
    congr 1
    refine List.filter_congr fun c _ => ?_
    by_cases hc : c ∈ R.col_names <;> simp [hc]
  refine ⟨hcols, ?_⟩
  rw [hcols, List.nodup_append]
  refine ⟨hR, hS.filter _, fun c hcR hcF => ?_⟩
  rw [List.mem_filter] at hcF
  have := hcF.2
  simp at this
  exact this hcR

/-- C5 witness: the amended statement applied to two concrete single-column
relations with distinct, duplicate-free column names. -/
theorem c5_witness :
    (Relation.new ["a"]).col_names.Nodup ∧
    ((Relation.new ["a"]).join (Relation.new ["b"])).col_names.Nodup :=
  ⟨by decide, (c5_output_columns (Relation.new ["a"]) (Relation.new ["b"])
    (by decide) (by decide)).2⟩

/-! ## Claim C10: determinism and output row order of the join -/

/-- C10: the join is a pure function of its two arguments (so two evaluations
on equal inputs agree, including row order), and its output rows are produced
in `S`-major order — one block per row of `S` in `S.data` order, each block
listing the matching rows of `R` in `R.data` order — despite the intermediate
hash map, which is only ever read by key lookup. -/
theorem c10_join_deterministic_order (R S : Relation) :
    (R.join S).data =
      S.data.flatMap fun srow =>
        (R.data.filter fun lrow =>
            decide (rowKey (R.leftKey S) lrow = rowKey (R.rightKey S) srow)).map
          fun lrow =>
            lrow ++ ((srow.enum.filter fun p => ! (R.rightKey S).contains p.1).map Prod.snd) :=
  Relation.join_data R S

/-! ## Claim C8: fold-order equivalence on the concrete example of `main` -/

/-- C8: with `R{a,b} = (1,2),(3,4),(5,6)`, `S{b,c} = (2,10),(4,20),(6,30)` and
`T{c,d} = (10,100),(20,200),(30,300)`, both `R.join(T).join(S)` and
`R.join(S).join(T)` have columns `(a,b,c,d)` and the same multiset of tuples
`(1,2,10,100), (3,4,20,200), (5,6,30,300)`. -/
theorem c8_fold_equivalence :
    ((((((Relation.new ["a", "b"]).row [1, 2]).row [3, 4]).row [5, 6]).join
        ((((Relation.new ["c", "d"]).row [10, 100]).row [20, 200]).row [30, 300])).join
      ((((Relation.new ["b", "c"]).row [2, 10]).row [4, 20]).row [6, 30])) =
      Relation.new_with_data ["a", "b", "c", "d"]
        [[1, 2, 10, 100], [3, 4, 20, 200], [5, 6, 30, 300]] ∧
    (((((Relation.new ["a", "b"]).row [1, 2]).row [3, 4]).row [5, 6]).join
        ((((Relation.new ["b", "c"]).row [2, 10]).row [4, 20]).row [6, 30])).join
      ((((Relation.new ["c", "d"]).row [10, 100]).row [20, 200]).row [30, 300]) =
      Relation.new_with_data ["a", "b", "c", "d"]
        [[1, 2, 10, 100], [3, 4, 20, 200], [5, 6, 30, 300]] ∧
    (([[1, 2, 10, 100], [3, 4, 20, 200], [5, 6, 30, 300]] : List (List Int)) :
        Multiset (List Int)) =
      ([[1, 2, 10, 100], [3, 4, 20, 200], [5, 6, 30, 300]] : List (List Int)) := by
  refine ⟨by decide, by decide, rfl⟩

/-! ## Claim C6: cross-product degeneracy of the join -/

/-- C6: when `R` and `S` share no column name the composite key is empty on
both sides, so every row of `R` matches every row of `S`: the join is the full
cross product, one output row per pair, `|R| * |S|` rows in total. -/
theorem c6_cross_product (R S : Relation)
    (hR : R.wellFormed) (hS : S.wellFormed)
    (hdisj : ∀ c ∈ R.col_names, c ∉ S.col_names) :
    (R.join S).data = S.data.flatMap (fun srow => R.data.map (fun lrow => lrow ++ srow)) ∧
    (R.join S).data.length = R.data.length * S.data.length := by
  have hcommon : R.commonCols S = [] := by
    unfold Relation.commonCols
    rw [List.filter_eq_nil_iff]
    intro c hc
    simp [hdisj c hc]
  have hlk : R.leftKey S = [] := by unfold Relation.leftKey; rw [hcommon]; rfl
  have hrk : R.rightKey S = [] := by unfold Relation.rightKey; rw [hcommon]; rfl
  have hdata : (R.join S).data =
      S.data.flatMap (fun srow => R.data.map (fun lrow => lrow ++ srow)) := by
    rw [Relation.join_data, hlk, hrk]
    refine List.flatMap_congr fun srow _ => ?_
    simp [rowKey, List.enum_map_snd]
  refine ⟨hdata, ?_⟩
  rw [hdata, List.length_flatMap]
  have hmap : (List.map (List.length ∘ fun srow => R.data.map fun lrow => lrow ++ srow) S.data) =
      List.map (fun _ => R.data.length) S.data :=
    List.map_congr_left fun srow _ => by simp
  rw [hmap, List.map_const', List.sum_replicate, smul_eq_mul, Nat.mul_comm]

/-- C6 witness: concrete disjoint single-column relations with one row each. -/
theorem c6_witness :
    ((Relation.new ["a"]).row [1]).wellFormed ∧
    (((Relation.new ["a"]).row [1]).join ((Relation.new ["b"]).row [2])).data = [[1, 2]] ∧
    (((Relation.new ["a"]).row [1]).join ((Relation.new ["b"]).row [2])).data.length = 1 := by
  have h := c6_cross_product ((Relation.new ["a"]).row [1]) ((Relation.new ["b"]).row [2])
    (by decide) (by decide) (by decide)
  exact ⟨by decide, by rw [h.1]; decide, by rw [h.2]; decide⟩

/-! ## Claim C9: shape invariant of the join output -/

/-- Membership in the right-key position list, for duplicate-free `S` columns:
a position is a right-key position exactly when it is in range and its column
name also occurs among `R`'s columns. -/
theorem mem_rightKey_iff (R S : Relation) (hSn : S.col_names.Nodup) (i : Nat) :
    i ∈ R.rightKey S ↔ i < S.col_names.length ∧ S.col_names.getD i "" ∈ R.col_names := by
  unfold Relation.rightKey Relation.commonCols
  rw [List.mem_map]
  constructor
  · rintro ⟨c, hc, rfl⟩
    rw [List.mem_filter] at hc
    have hcS : c ∈ S.col_names := by simpa using hc.2
    have hlt : List.indexOf c S.col_names < S.col_names.length :=
      List.indexOf_lt_length.mpr hcS
    refine ⟨hlt, ?_⟩
    rw [List.getD_eq_getElem _ _ hlt, List.getElem_indexOf hlt]
    exact hc.1
  · rintro ⟨hlt, hmem⟩
    refine ⟨S.col_names.getD i "", ?_, ?_⟩
    · rw [List.mem_filter]
      rw [List.getD_eq_getElem _ _ hlt]
      exact ⟨by rw [← List.getD_eq_getElem _ "" hlt]; exact hmem, by simp [List.getElem_mem]⟩
    · rw [List.getD_eq_getElem _ _ hlt]
      exact List.indexOf_getElem hSn i hlt

/-- Filtering a zip by a predicate on the first component only gives the same
count as filtering the first list, when the lengths agree. -/
theorem length_filter_zip_fst (q : Nat → Bool) :
    ∀ (l1 : List Nat) (l2 : List Int), l1.length = l2.length →
      ((l1.zip l2).filter fun p => q p.1).length = (l1.filter q).length := by
  intro l1
  induction l1 with
  | nil => intro l2 h; simp
  | cons a t ih =>
    intro l2 h
    cases l2 with
    | nil => simp at h
    | cons b t2 =>
      have ht : t.length = t2.length := by simpa using h
      simp only [List.zip_cons_cons, List.filter_cons]
      by_cases hq : q a
      · simp [hq, ih t2 ht]
      · simp [hq, ih t2 ht]

/-- Counting the in-range positions whose column name satisfies `q` equals
counting the column names satisfying `q`. -/
theorem length_filter_range_getD (q : String → Bool) (d : String) :
    ∀ cols : List String,
      ((List.range cols.length).filter fun i => q (cols.getD i d)).length =
        (cols.filter q).length := by
  intro cols
  induction cols with
  | nil => simp
  | cons c cs ih =>
    rw [List.length_cons, List.range_succ_eq_map, List.filter_cons]
    have hcomp : ((fun i => q ((c :: cs).getD i d)) ∘ Nat.succ) =
        fun i => q (cs.getD i d) := by
      funext i
      simp [List.getD_cons_succ]
    have hrest : (((List.range cs.length).map Nat.succ).filter
        fun i => q ((c :: cs).getD i d)).length = (cs.filter q).length := by
      rw [List.filter_map, List.length_map, hcomp, ih]
    rw [List.getD_cons_zero]
    by_cases hq : q c
    · rw [if_pos hq, List.length_cons, hrest, List.filter_cons, if_pos hq, List.length_cons]
    · rw [if_neg hq, hrest, List.filter_cons, if_neg hq]

/-- C9 counterexample: `R{a,b}` with row `(1,2)` and `S{a,a}` with row `(1,1)`
both satisfy the row-length well-formedness of the claim, yet the join output
has the 3-value row `(1,2,1)` against 2 output columns: the shape invariant is
not preserved when `S`'s column names repeat. -/
theorem c9_counterexample :
    (Relation.new_with_data ["a", "b"] [[1, 2]]).wellFormed ∧
    (Relation.new_with_data ["a", "a"] [[1, 1]]).wellFormed ∧
    ((Relation.new_with_data ["a", "b"] [[1, 2]]).join
      (Relation.new_with_data ["a", "a"] [[1, 1]])).data = [[1, 2, 1]] ∧
    ((Relation.new_with_data ["a", "b"] [[1, 2]]).join
      (Relation.new_with_data ["a", "a"] [[1, 1]])).col_names = ["a", "b"] ∧
    ¬ ((Relation.new_with_data ["a", "b"] [[1, 2]]).join
      (Relation.new_with_data ["a", "a"] [[1, 1]])).wellFormed := by
  exact ⟨by decide, by decide, by decide, by decide, by decide⟩

/-- C9 amended: if both inputs satisfy the shape invariant and additionally
`S`'s column names are duplicate-free, every row of `R.join(S)` has length
equal to the number of output column names. -/
theorem c9_shape_invariant (R S : Relation) (hR : R.wellFormed) (hS : S.wellFormed)
    (hSn : S.col_names.Nodup) : (R.join S).wellFormed := by
  intro orow horow
  rw [Relation.join_data, List.mem_flatMap] at horow
  obtain ⟨srow, hsrow, horow⟩ := horow
  rw [List.mem_map] at horow
  obtain ⟨lrow, hlrow, rfl⟩ := horow
  rw [List.mem_filter] at hlrow
  have hlenL : lrow.length = R.col_names.length := hR lrow hlrow.1
  have hlenS : srow.length = S.col_names.length := hS srow hsrow
  have htail : ((srow.enum.filter fun p => ! (R.rightKey S).contains p.1).map Prod.snd).length
      = (S.col_names.filter fun c => ! R.col_names.contains c).length := by
    rw [List.length_map]
    have hcong : srow.enum.filter (fun p => ! (R.rightKey S).contains p.1) =
        srow.enum.filter fun p => ! (R.col_names.contains (S.col_names.getD p.1 "")) := by
      refine List.filter_congr fun p hp => ?_
      have hlt : p.1 < srow.length := (List.mem_enum hp).1
      have hiff : (p.1 ∈ R.rightKey S) ↔ S.col_names.getD p.1 "" ∈ R.col_names := by
        rw [mem_rightKey_iff R S hSn]
        exact ⟨fun h => h.2, fun h => ⟨hlenS ▸ hlt, h⟩⟩
      have hc1 : (R.rightKey S).contains p.1 = decide (p.1 ∈ R.rightKey S) := by simp
      have hc2 : R.col_names.contains (S.col_names.getD p.1 "") =
          decide (S.col_names.getD p.1 "" ∈ R.col_names) := by simp
      rw [hc1, hc2, decide_eq_decide.mpr hiff]
    rw [hcong, List.enum_eq_zip_range]
    have hz2 : (((List.range srow.length).zip srow).filter
          fun p => ! R.col_names.contains (S.col_names.getD p.1 "")).length =
        ((List.range srow.length).filter
          fun i => ! R.col_names.contains (S.col_names.getD i "")).length :=
      length_filter_zip_fst (fun i => ! R.col_names.contains (S.col_names.getD i ""))
        (List.range srow.length) srow (by rw [List.length_range])
    rw [hz2, hlenS]
    exact length_filter_range_getD (fun c => ! R.col_names.contains c) "" S.col_names
  rw [List.length_append, htail, hlenL, Relation.join_col_names]
  unfold Relation.outputCols
  rw [List.length_append]

/-- C9 witness: the amended statement applied to concrete well-formed
relations sharing column `b`, with duplicate-free column names. -/
theorem c9_witness :
    (Relation.new_with_data ["a", "b"] [[1, 2]]).wellFormed ∧
    ((Relation.new_with_data ["a", "b"] [[1, 2]]).join
      (Relation.new_with_data ["b", "c"] [[2, 3]])).wellFormed :=
  ⟨by decide, c9_shape_invariant _ _ (by decide) (by decide) (by decide)⟩

/-! ## Claim C3: join correctness (multiset of output rows) -/

/-- Membership in the common-column list is joint membership. -/
theorem mem_commonCols (R S : Relation) (c : String) :
    c ∈ R.commonCols S ↔ c ∈ R.col_names ∧ c ∈ S.col_names := by
  unfold Relation.commonCols
  rw [List.mem_filter]
  simp

/-- The composite keys of two rows coincide exactly when the rows agree on
every shared column name. -/
theorem keyMatch_iff_agrees (R S : Relation) (r s : List Int) :
    rowKey (R.leftKey S) r = rowKey (R.rightKey S) s ↔ agreesOnShared R S r s := by
  unfold rowKey Relation.leftKey Relation.rightKey agreesOnShared
  rw [List.map_map, List.map_map, List.map_eq_map_iff]
  constructor
  · intro h c hcR hcS
    exact h c ((mem_commonCols R S c).mpr ⟨hcR, hcS⟩)
  · intro h c hc
    have hc2 := (mem_commonCols R S c).mp hc
    exact h c hc2.1 hc2.2

/-- The value tail appended by the join equals the spec's non-shared values,
for a row of the right length over duplicate-free `S` columns. -/
theorem joinFmt_eq_nonSharedVals (R S : Relation) (hSn : S.col_names.Nodup)
    (srow : List Int) (hlen : srow.length = S.col_names.length) :
    ((srow.enum.filter fun p => ! (R.rightKey S).contains p.1).map Prod.snd) =
      nonSharedVals R S srow := by
  unfold nonSharedVals
  congr 1
  refine List.filter_congr fun p hp => ?_
  have hlt : p.1 < srow.length := (List.mem_enum hp).1
  have hiff : (p.1 ∈ R.rightKey S) ↔ S.col_names.getD p.1 "" ∈ R.col_names := by
    rw [mem_rightKey_iff R S hSn]
    exact ⟨fun h => h.2, fun h => ⟨hlen ▸ hlt, h⟩⟩
  have hc1 : (R.rightKey S).contains p.1 = decide (p.1 ∈ R.rightKey S) := by simp
  rw [hc1, decide_eq_decide.mpr hiff, ← decide_not]

/-- Mapping over a filter, written as a flat map with singleton or empty
blocks. -/
theorem filter_map_eq_flatMap {α β : Type} (l : List α) (p : α → Bool) (f : α → β) :
    (l.filter p).map f = l.flatMap fun a => if p a then [f a] else [] := by
  induction l with
  | nil => rfl
  | cons a t ih =>
    rw [List.filter_cons, List.flatMap_cons]
    by_cases hp : p a
    · simp only [if_pos hp, List.map_cons, ih, List.singleton_append]
    · simp only [if_neg hp, ih, List.nil_append]

/-- Nested flat maps over two lists commute up to multiset equality. -/
theorem coe_flatMap_flatMap_comm {α β γ : Type} (l1 : List α) (l2 : List β)
    (f : α → β → List γ) :
    ((l1.flatMap fun a => l2.flatMap fun b => f a b : List γ) : Multiset γ) =
    ((l2.flatMap fun b => l1.flatMap fun a => f a b : List γ) : Multiset γ) := by
  simp only [← Multiset.coe_bind]
  exact Multiset.bind_bind (l1 : Multiset α) (l2 : Multiset β)

/-- Appending a tail to a row does not change its left composite key, when the
row spans all of `R`'s columns. -/
theorem rowKey_leftKey_append (R S : Relation) (lrow tail : List Int)
    (hlen : lrow.length = R.col_names.length) :
    rowKey (R.leftKey S) (lrow ++ tail) = rowKey (R.leftKey S) lrow := by
  unfold rowKey
  refine List.map_congr_left fun i hi => ?_
  have hiR : i < R.col_names.length := by
    unfold Relation.leftKey at hi
    rw [List.mem_map] at hi
    obtain ⟨c, hc, rfl⟩ := hi
    exact List.indexOf_lt_length.mpr ((mem_commonCols R S c).mp hc).1
  rw [List.getD_append lrow tail 0 i (hlen ▸ hiR)]

/-- Summing `K` over the elements satisfying `q` counts them `K` times. -/
theorem sum_map_ite_const {β : Type} (l : List β) (q : β → Bool) (K : Nat) :
    (l.map fun b => if q b then K else 0).sum = K * l.countP q := by
  induction l with
  | nil => simp
  | cons b t ih =>
    rw [List.map_cons, List.sum_cons, ih, List.countP_cons]
    by_cases hq : q b
    · rw [if_pos hq, if_pos hq]
      ring
    · rw [if_neg hq, if_neg hq]
      ring

/-- C3: for well-formed relations (shape-correct rows, duplicate-free column
names) sharing at least one column, the multiset of output rows of
`R.join(S)` is exactly the spec's inner-join set — one output row
`r ++ (s at non-shared positions)` per pair `(r, s)` agreeing on every shared
column name — and for every composite key the number of output rows carrying
that key is the product of the matching row counts of `R` and `S`. -/
theorem c3_join_correct (R S : Relation) (hR : R.wellFormed) (hS : S.wellFormed)
    (hRn : R.col_names.Nodup) (hSn : S.col_names.Nodup) (hsh : sharesColumn R S) :
    ((R.join S).data : Multiset (List Int)) = (joinSpecRows R S : Multiset (List Int)) ∧
    ∀ key : List Int,
      (R.join S).data.countP (fun orow => decide (rowKey (R.leftKey S) orow = key)) =
        R.data.countP (fun r => decide (rowKey (R.leftKey S) r = key)) *
          S.data.countP (fun s => decide (rowKey (R.rightKey S) s = key)) := by
  constructor
  · have hdata : (R.join S).data =
        S.data.flatMap fun srow =>
          (R.data.filter fun lrow => decide (agreesOnShared R S lrow srow)).map
            fun lrow => lrow ++ nonSharedVals R S srow := by
      rw [Relation.join_data]
      refine List.flatMap_congr fun srow hsrow => ?_
      have hpred : (fun lrow =>
            decide (rowKey (R.leftKey S) lrow = rowKey (R.rightKey S) srow)) =
          fun lrow => decide (agreesOnShared R S lrow srow) := by
        funext lrow
        rw [decide_eq_decide]
        exact keyMatch_iff_agrees R S lrow srow
      have hfmt : (fun lrow : List Int => lrow ++
            ((srow.enum.filter fun p => ! (R.rightKey S).contains p.1).map Prod.snd)) =
          fun lrow : List Int => lrow ++ nonSharedVals R S srow := by
        funext lrow
        rw [joinFmt_eq_nonSharedVals R S hSn srow (hS srow hsrow)]
      rw [hpred, hfmt]
    have hspec : joinSpecRows R S = R.data.flatMap fun r => S.data.flatMap fun s =>
        if decide (agreesOnShared R S r s) then [r ++ nonSharedVals R S s] else [] := by
      unfold joinSpecRows
      refine List.flatMap_congr fun r _ => ?_
      rw [filter_map_eq_flatMap]
    have hcode : (S.data.flatMap fun srow =>
          (R.data.filter fun lrow => decide (agreesOnShared R S lrow srow)).map
            fun lrow => lrow ++ nonSharedVals R S srow)
        = S.data.flatMap fun s => R.data.flatMap fun r =>
            if decide (agreesOnShared R S r s) then [r ++ nonSharedVals R S s] else [] := by
      refine List.flatMap_congr fun s _ => ?_
      rw [filter_map_eq_flatMap]
    rw [hdata, hcode, hspec]
    exact coe_flatMap_flatMap_comm S.data R.data
      (fun s r => if decide (agreesOnShared R S r s) then [r ++ nonSharedVals R S s] else [])
  · intro key
    rw [Relation.join_data, List.countP_flatMap]
    have hmapeq : List.map
        ((List.countP fun orow => decide (rowKey (R.leftKey S) orow = key)) ∘ fun srow =>
          (R.data.filter fun lrow =>
              decide (rowKey (R.leftKey S) lrow = rowKey (R.rightKey S) srow)).map
            fun lrow =>
              lrow ++ ((srow.enum.filter fun p => ! (R.rightKey S).contains p.1).map Prod.snd))
        S.data
        = S.data.map fun srow => if decide (rowKey (R.rightKey S) srow = key)
            then R.data.countP fun r => decide (rowKey (R.leftKey S) r = key) else 0 := by
      refine List.map_congr_left fun srow hsrow => ?_
      show List.countP _ ((R.data.filter _).map _) = _
      rw [List.countP_map, List.countP_filter]
      by_cases hsk : rowKey (R.rightKey S) srow = key
      · rw [if_pos (decide_eq_true hsk)]
        refine List.countP_congr fun lrow hl => ?_
        have hkey := rowKey_leftKey_append R S lrow
          ((srow.enum.filter fun p => ! (R.rightKey S).contains p.1).map Prod.snd)
          (hR lrow hl)
        simp only [Function.comp_apply, Bool.and_eq_true, decide_eq_true_eq, hkey, hsk, and_self]
      · rw [if_neg (fun hcon => hsk (of_decide_eq_true hcon))]
        refine List.countP_eq_zero.mpr fun lrow hl => ?_
        have hkey := rowKey_leftKey_append R S lrow
          ((srow.enum.filter fun p => ! (R.rightKey S).contains p.1).map Prod.snd)
          (hR lrow hl)
        simp only [Function.comp_apply, Bool.and_eq_true, decide_eq_true_eq, hkey]
        rintro ⟨h1, h2⟩
        exact hsk (h2.symm.trans h1)
    rw [hmapeq, sum_map_ite_const]

/-- C3 witness: the join-correctness statement applied to the concrete `R` and
`S` of `main` (sharing column `b`). -/
theorem c3_witness :
    ((((Relation.new ["a", "b"]).row [1, 2]).row [3, 4]).row [5, 6]).wellFormed ∧
    (((((Relation.new ["a", "b"]).row [1, 2]).row [3, 4]).row [5, 6]).join
        ((((Relation.new ["b", "c"]).row [2, 10]).row [4, 20]).row [6, 30])).data =
      ((((((Relation.new ["a", "b"]).row [1, 2]).row [3, 4]).row [5, 6]).join
        ((((Relation.new ["b", "c"]).row [2, 10]).row [4, 20]).row [6, 30])).data :
          List (List Int)) ∧
    (((((((Relation.new ["a", "b"]).row [1, 2]).row [3, 4]).row [5, 6]).join
        ((((Relation.new ["b", "c"]).row [2, 10]).row [4, 20]).row [6, 30])).data :
      List (List Int)) : Multiset (List Int)) =
      (joinSpecRows ((((Relation.new ["a", "b"]).row [1, 2]).row [3, 4]).row [5, 6])
        ((((Relation.new ["b", "c"]).row [2, 10]).row [4, 20]).row [6, 30]) :
          Multiset (List Int)) :=
  ⟨by decide, rfl,
    (c3_join_correct
      ((((Relation.new ["a", "b"]).row [1, 2]).row [3, 4]).row [5, 6])
      ((((Relation.new ["b", "c"]).row [2, 10]).row [4, 20]).row [6, 30])
      (by decide) (by decide) (by decide) (by decide)
      ⟨"b", by decide, by decide⟩).1⟩

/-! ## Claim C7: the planner's join-graph invariant -/

/-- Padding with empty adjacency lists does not change any lookup with an
empty default. -/
theorem getD_append_replicate_nil (l : List (List Nat)) (k v : Nat) :
    (l ++ List.replicate k ([] : List Nat)).getD v [] = l.getD v [] := by
  rw [List.getD_eq_getElem?_getD, List.getD_eq_getElem?_getD, List.getElem?_append]
  by_cases hv : v < l.length
  · rw [if_pos hv]
  · rw [if_neg hv, List.getElem?_replicate, List.getElem?_eq_none (by omega)]
    by_cases hk : v - l.length < k
    · rw [if_pos hk]
      rfl
    · rw [if_neg hk]

/-- Lookup after a in-range update: the new value at the updated index, the old
value elsewhere. -/
theorem getD_set_of_lt (l : List (List Nat)) (i : Nat) (L : List Nat) (v : Nat)
    (hi : i < l.length) :
    (l.set i L).getD v [] = if i = v then L else l.getD v [] := by
  rw [List.getD_eq_getElem?_getD, List.getElem?_set]
  by_cases hv : i = v
  · rw [if_pos hv, if_pos hv, if_pos hi]
    rfl
  · rw [if_neg hv, if_neg hv, ← List.getD_eq_getElem?_getD]

/-- Unfolding of `Graph.edge` without let bindings. -/
theorem Graph.edge_edges (g : Graph) (a b : Nat) :
    (g.edge a b).edges =
      ((g.edges ++ List.replicate (Nat.max a b + 1 - g.edges.length) []).set a
        ((g.edges ++ List.replicate (Nat.max a b + 1 - g.edges.length) []).getD a [] ++ [b])).set b
        (((g.edges ++ List.replicate (Nat.max a b + 1 - g.edges.length) []).set a
          ((g.edges ++ List.replicate (Nat.max a b + 1 - g.edges.length) []).getD a [] ++ [b])).getD b []
          ++ [a]) := rfl

/-- Neighbour membership after adding one edge: the old adjacency plus the two
new directed entries. -/
theorem Graph.mem_neighbours_edge (g : Graph) (a b v x : Nat) :
    x ∈ (g.edge a b).neighbours v ↔
      x ∈ g.neighbours v ∨ (v = a ∧ x = b) ∨ (v = b ∧ x = a) := by
  unfold Graph.neighbours
  rw [Graph.edge_edges]
  set es := g.edges ++ List.replicate (Nat.max a b + 1 - g.edges.length) ([] : List Nat)
    with hes
  have hlen_es : es.length = g.edges.length + (Nat.max a b + 1 - g.edges.length) := by
    rw [hes, List.length_append, List.length_replicate]
  have hmax : Nat.max a b < es.length := by
    rw [hlen_es]
    rcases Nat.le_total (Nat.max a b + 1) g.edges.length with h | h
    · exact Nat.lt_of_lt_of_le (Nat.lt_succ_self _) (Nat.le_trans h (Nat.le_add_right _ _))
    · rw [Nat.add_sub_cancel' h]
      exact Nat.lt_succ_self _
  have ha : a < es.length := Nat.lt_of_le_of_lt (Nat.le_max_left a b) hmax
  have hb : b < es.length := Nat.lt_of_le_of_lt (Nat.le_max_right a b) hmax
  have hb1 : b < (es.set a (es.getD a [] ++ [b])).length := by
    rw [List.length_set]
    exact hb
  have hpad : ∀ u, es.getD u [] = g.edges.getD u [] := fun u => by
    rw [hes]
    exact getD_append_replicate_nil g.edges _ u
  rcases eq_or_ne v b with hvb | hvb
  · subst hvb
    rw [getD_set_of_lt _ _ _ _ hb1, if_pos rfl]
    rcases eq_or_ne v a with hva | hva
    · rw [getD_set_of_lt _ _ _ _ ha, if_pos hva.symm, hpad a]
      simp only [hva, List.mem_append, List.mem_singleton]
      tauto
    · rw [getD_set_of_lt _ _ _ _ ha, if_neg (fun h => hva h.symm), hpad v]
      simp only [List.mem_append, List.mem_singleton]
      simp [hva]
  · rw [getD_set_of_lt _ _ _ _ hb1, if_neg (fun h => hvb h.symm)]
    rcases eq_or_ne v a with hva | hva
    · subst hva
      rw [getD_set_of_lt _ _ _ _ ha, if_pos rfl, hpad v]
      simp only [List.mem_append, List.mem_singleton]
      simp [hvb]
    · rw [getD_set_of_lt _ _ _ _ ha, if_neg (fun h => hva h.symm), hpad v]
      simp [hva, hvb]

/-- The Boolean sharing test of `Planner::join` decides `sharesColumn`. -/
theorem sharesB_iff (rel t : Relation) : sharesB rel t = true ↔ sharesColumn rel t := by
  unfold sharesB sharesColumn
  rw [List.any_eq_true]
  constructor
  · rintro ⟨c, hc, hct⟩
    exact ⟨c, hc, by simpa using hct⟩
  · rintro ⟨c, hc, hct⟩
    exact ⟨c, hc, by simpa using hct⟩

/-- Sharing a column name is symmetric. -/
theorem sharesColumn_symm (r t : Relation) : sharesColumn r t ↔ sharesColumn t r := by
  unfold sharesColumn
  exact ⟨fun ⟨c, h1, h2⟩ => ⟨c, h2, h1⟩, fun ⟨c, h1, h2⟩ => ⟨c, h2, h1⟩⟩

/-- Neighbour membership after the conditional edge-adding fold of
`Planner::join`, over an arbitrary association list. -/
theorem mem_neighbours_foldl_edge (rel : Relation) (n : Nat) :
    ∀ (l : List (Nat × Relation)) (g : Graph) (v x : Nat),
      x ∈ (l.foldl (fun g it => if sharesB rel it.2 then g.edge n it.1 else g) g).neighbours v ↔
        x ∈ g.neighbours v ∨
          ∃ it ∈ l, sharesB rel it.2 = true ∧ ((v = n ∧ x = it.1) ∨ (v = it.1 ∧ x = n)) := by
  intro l
  induction l with
  | nil =>
    intro g v x
    simp
  | cons it0 rest ih =>
    intro g v x
    rw [List.foldl_cons]
    by_cases hsh : sharesB rel it0.2
    · rw [if_pos hsh, ih]
      simp only [List.mem_cons]
      constructor
      · rintro (hbase | ⟨it, hit, h1, h2⟩)
        · rw [Graph.mem_neighbours_edge] at hbase
          rcases hbase with h | h | h
          · exact Or.inl h
          · exact Or.inr ⟨it0, Or.inl rfl, hsh, Or.inl h⟩
          · exact Or.inr ⟨it0, Or.inl rfl, hsh, Or.inr h⟩
        · exact Or.inr ⟨it, Or.inr hit, h1, h2⟩
      · rintro (hbase | ⟨it, hit, h1, h2⟩)
        · exact Or.inl (by rw [Graph.mem_neighbours_edge]; exact Or.inl hbase)
        · rcases hit with rfl | hit
          · exact Or.inl (by rw [Graph.mem_neighbours_edge]; exact Or.inr h2)
          · exact Or.inr ⟨it, hit, h1, h2⟩
    · rw [if_neg hsh, ih]
      simp only [List.mem_cons]
      constructor
      · rintro (h | ⟨it, hit, h1, h2⟩)
        · exact Or.inl h
        · exact Or.inr ⟨it, Or.inr hit, h1, h2⟩
      · rintro (h | ⟨it, hit, h1, h2⟩)
        · exact Or.inl h
        · rcases hit with rfl | hit
          · exact absurd h1 hsh
          · exact Or.inr ⟨it, hit, h1, h2⟩

/-- Neighbour membership after one `Planner::join`: the old adjacency plus the
edges between the new position and each sharing earlier position. -/
theorem Planner.join_neighbours (p : Planner) (rel : Relation) (v x : Nat) :
    x ∈ (p.join rel).query_graph.neighbours v ↔
      x ∈ p.query_graph.neighbours v ∨
        ∃ i, (∃ h : i < p.joined_tables.length, sharesB rel (p.joined_tables[i]) = true) ∧
          ((v = p.joined_tables.length ∧ x = i) ∨ (v = i ∧ x = p.joined_tables.length)) := by
  show x ∈ (p.joined_tables.enum.foldl _ p.query_graph).neighbours v ↔ _
  rw [mem_neighbours_foldl_edge]
  constructor
  · rintro (h | ⟨it, hit, h1, h2⟩)
    · exact Or.inl h
    · obtain ⟨i, t⟩ := it
      rw [List.mk_mem_enum_iff_getElem?, List.getElem?_eq_some] at hit
      obtain ⟨hlt, hget⟩ := hit
      exact Or.inr ⟨i, ⟨hlt, by rw [hget]; exact h1⟩, h2⟩
  · rintro (h | ⟨i, ⟨hlt, hsh⟩, h2⟩)
    · exact Or.inl h
    · refine Or.inr ⟨(i, p.joined_tables[i]), ?_, hsh, h2⟩
      rw [List.mk_mem_enum_iff_getElem?, List.getElem?_eq_some]
      exact ⟨hlt, rfl⟩

/-- The planner's stored tables are exactly the added relations, in order. -/
theorem mkPlanner_tables (rels : List Relation) :
    (mkPlanner rels).joined_tables = rels := by
  induction rels using List.reverseRecOn with
  | nil => rfl
  | append_singleton rs r ih =>
    unfold mkPlanner
    rw [List.foldl_append]
    show ((mkPlanner rs).join r).joined_tables = rs ++ [r]
    unfold Planner.join
    rw [ih]

/-- Folding one more relation into the planner. -/
theorem mkPlanner_append_singleton (rs : List Relation) (r : Relation) :
    mkPlanner (rs ++ [r]) = (mkPlanner rs).join r := by
  unfold mkPlanner
  rw [List.foldl_append]
  rfl

/-- Lookup at the appended position. -/
theorem getD_append_length (rs : List Relation) (r : Relation) :
    (rs ++ [r]).getD rs.length default = r := by
  rw [List.getD_eq_getElem?_getD, List.getElem?_append]
  rw [if_neg (by omega)]
  simp

/-- Full characterization of the planner's join graph: `x` is a neighbour of
`v` exactly when both are positions of distinct added relations that share a
column name. -/
theorem mkPlanner_graph_char (rels : List Relation) : ∀ v x : Nat,
    x ∈ (mkPlanner rels).query_graph.neighbours v ↔
      (v ≠ x ∧ v < rels.length ∧ x < rels.length ∧
        sharesColumn (rels.getD v default) (rels.getD x default)) := by
  induction rels using List.reverseRecOn with
  | nil =>
    intro v x
    constructor
    · intro h
      simp [mkPlanner, Graph.neighbours] at h
    · rintro ⟨_, hv, _, _⟩
      simp at hv
  | append_singleton rs r ih =>
    intro v x
    rw [mkPlanner_append_singleton, Planner.join_neighbours, mkPlanner_tables rs]
    constructor
    · rintro (hold | ⟨i, ⟨hlt, hsh⟩, hcase⟩)
      · obtain ⟨hne, hv, hx, hshare⟩ := (ih v x).mp hold
        refine ⟨hne, by rw [List.length_append, List.length_singleton]; omega, by rw [List.length_append, List.length_singleton]; omega, ?_⟩
        rw [List.getD_append _ _ _ _ hv, List.getD_append _ _ _ _ hx]
        exact hshare
      · have hshc : sharesColumn r (rs.getD i default) := by
          rw [← sharesB_iff]
          rw [List.getD_eq_getElem _ _ hlt]
          exact hsh
        rcases hcase with ⟨rfl, rfl⟩ | ⟨rfl, rfl⟩
        · refine ⟨Nat.ne_of_gt hlt, by rw [List.length_append, List.length_singleton]; omega,
            by rw [List.length_append, List.length_singleton]; omega, ?_⟩
          rw [getD_append_length, List.getD_append _ _ _ _ hlt]
          exact hshc
        · refine ⟨Nat.ne_of_lt hlt, by rw [List.length_append, List.length_singleton]; omega,
            by rw [List.length_append, List.length_singleton]; omega, ?_⟩
          rw [getD_append_length, List.getD_append _ _ _ _ hlt]
          exact (sharesColumn_symm _ _).mp hshc
    · rintro ⟨hne, hv, hx, hshare⟩
      rw [List.length_append, List.length_singleton] at hv hx
      rcases Nat.lt_succ_iff_lt_or_eq.mp hv with hv | rfl
      · rcases Nat.lt_succ_iff_lt_or_eq.mp hx with hx | rfl
        · refine Or.inl ((ih v x).mpr ⟨hne, hv, hx, ?_⟩)
          rwa [List.getD_append _ _ _ _ hv, List.getD_append _ _ _ _ hx] at hshare
        · rw [getD_append_length, List.getD_append _ _ _ _ hv] at hshare
          refine Or.inr ⟨v, ⟨hv, ?_⟩, Or.inr ⟨rfl, rfl⟩⟩
          rw [sharesB_iff, ← List.getD_eq_getElem _ default hv]
          exact (sharesColumn_symm _ _).mp hshare
      · rcases Nat.lt_succ_iff_lt_or_eq.mp hx with hx | rfl
        · rw [getD_append_length, List.getD_append _ _ _ _ hx] at hshare
          refine Or.inr ⟨x, ⟨hx, ?_⟩, Or.inl ⟨rfl, rfl⟩⟩
          rw [sharesB_iff, ← List.getD_eq_getElem _ default hx]
          exact hshare
        · exact absurd rfl hne

/-- C7: after any sequence of add-relation calls, the join graph has a
neighbour entry from `i` to `j` exactly when `i` and `j` are distinct positions
of added relations sharing at least one column name, and the graph is
symmetric: every entry from `a` to `b` has a reciprocal entry from `b` to
`a`. -/
theorem c7_graph_invariant (rels : List Relation) :
    (∀ i j, j ∈ (mkPlanner rels).query_graph.neighbours i ↔
      (i ≠ j ∧ i < rels.length ∧ j < rels.length ∧
        sharesColumn (rels.getD i default) (rels.getD j default))) ∧
    (∀ a b, b ∈ (mkPlanner rels).query_graph.neighbours a →
      a ∈ (mkPlanner rels).query_graph.neighbours b) := by
  refine ⟨mkPlanner_graph_char rels, fun a b hab => ?_⟩
  obtain ⟨hne, ha, hb, hsh⟩ := (mkPlanner_graph_char rels a b).mp hab
  exact (mkPlanner_graph_char rels b a).mpr
    ⟨hne.symm, hb, ha, (sharesColumn_symm _ _).mp hsh⟩

/-- C7 witness: in the planner over two relations sharing column `a`, position
1 is a neighbour of position 0 and reciprocally. -/
theorem c7_witness :
    1 ∈ (mkPlanner [Relation.new ["a"], Relation.new ["a", "b"]]).query_graph.neighbours 0 ∧
    0 ∈ (mkPlanner [Relation.new ["a"], Relation.new ["a", "b"]]).query_graph.neighbours 1 := by
  have h := c7_graph_invariant [Relation.new ["a"], Relation.new ["a", "b"]]
  have h01 : (1 : Nat) ∈
      (mkPlanner [Relation.new ["a"], Relation.new ["a", "b"]]).query_graph.neighbours 0 :=
    (h.1 0 1).mpr ⟨by decide, by decide, by decide, ⟨"a", by decide, by decide⟩⟩
  exact ⟨h01, h.2 0 1 h01⟩

/-! ## Claim C1: plan completeness (permutation of the inputs) -/

/-- C1: on the triangle of relations `{a,b}`, `{b,c}`, `{c,a}` (each pair
shares a column, so the join graph is a 3-cycle), `Planner::plan` emits four
entries for three added relations and the fourth is `Relation::default()`,
whichever element the hash set yields as seed: the traversal has no
already-visited check on pop, a position enters the frontier twice, and the
second `mem::take` of that position yields the empty default relation.  The
output is therefore not a permutation of the added relations. -/
theorem c1_plan_not_permutation (choose : List Nat → Nat) (hch : validChoose choose) :
    ∃ out, (mkPlanner [Relation.new ["a", "b"], Relation.new ["b", "c"],
        Relation.new ["c", "a"]]).plan choose 20 = some out ∧
      out.length = 4 ∧ (⟨[], []⟩ : Relation) ∈ out := by
  have e1 : (mkPlanner [Relation.new ["a", "b"], Relation.new ["b", "c"],
      Relation.new ["c", "a"]]).plan choose 20
      = (planStep (mkPlanner [Relation.new ["a", "b"], Relation.new ["b", "c"],
          Relation.new ["c", "a"]]).query_graph choose 19 [0, 1, 2] [choose [0, 1, 2]] []).map
        (takeAll (mkPlanner [Relation.new ["a", "b"], Relation.new ["b", "c"],
          Relation.new ["c", "a"]]).joined_tables) := rfl
  have h3 : choose [0, 1, 2] = 0 ∨ choose [0, 1, 2] = 1 ∨ choose [0, 1, 2] = 2 := by
    have hm := hch [0, 1, 2] (by simp)
    simpa using hm
  rcases h3 with h | h | h
  · exact ⟨[Relation.new ["a", "b"], Relation.new ["c", "a"], Relation.new ["b", "c"], ⟨[], []⟩],
      by rw [e1, h]; rfl, by decide, by decide⟩
  · exact ⟨[Relation.new ["b", "c"], Relation.new ["c", "a"], Relation.new ["a", "b"], ⟨[], []⟩],
      by rw [e1, h]; rfl, by decide, by decide⟩
  · exact ⟨[Relation.new ["c", "a"], Relation.new ["b", "c"], Relation.new ["a", "b"], ⟨[], []⟩],
      by rw [e1, h]; rfl, by decide, by decide⟩

/-- C1 witness: the duplicate-emitting run applied to the head-picking seed
choice. -/
theorem c1_witness :
    validChoose (fun l => l.headD 0) ∧
    ∃ out, (mkPlanner [Relation.new ["a", "b"], Relation.new ["b", "c"],
        Relation.new ["c", "a"]]).plan (fun l => l.headD 0) 20 = some out ∧
      out.length = 4 ∧ (⟨[], []⟩ : Relation) ∈ out := by
  have hv : validChoose (fun l => l.headD 0) := by
    intro l hl
    cases l with
    | nil => exact absurd rfl hl
    | cons a t => simp [List.headD]
  exact ⟨hv, c1_plan_not_permutation (fun l => l.headD 0) hv⟩

/-! ## Claim C4: plan validity -/

/-- Lookup at the appended position, generic element type. -/
theorem getD_concat_length {α : Type} (l : List α) (a d : α) :
    (l ++ [a]).getD l.length d = a := by
  rw [List.getD_eq_getElem?_getD, List.getElem?_append, if_neg (by omega)]
  simp

/-- Main loop invariant of `Planner::plan`'s traversal: if the loop state
satisfies the invariants below — `remaining` is a duplicate-free set of
in-range positions, every in-range position is remaining or already planned,
planned positions are not remaining, every frontier entry is adjacent to some
planned position unless it is a freshly chosen seed, and every neighbour of a
planned position is either consumed or on the frontier — then the final plan
satisfies `planGood`. -/
theorem planStep_good (g : Graph) (n : Nat)
    (hbound : ∀ v w, w ∈ g.neighbours v → v < n ∧ w < n)
    (choose : List Nat → Nat) (hch : validChoose choose) :
    ∀ fuel remaining frontier plan out,
      planStep g choose fuel remaining frontier plan = some out →
      remaining.Nodup →
      (∀ v ∈ remaining, v < n) →
      (∀ v, v < n → v ∈ remaining ∨ v ∈ plan) →
      (∀ u ∈ plan, u ∉ remaining) →
      (∀ w ∈ frontier, (∃ u ∈ plan, w ∈ g.neighbours u) ∨
        (frontier = [w] ∧ w ∉ plan ∧ w ∈ remaining)) →
      (∀ u ∈ plan, ∀ w, w ∈ g.neighbours u → w ∉ remaining ∨ w ∈ frontier) →
      planGood g plan →
      planGood g out := by
  intro fuel
  induction fuel with
  | zero =>
    intro remaining frontier plan out hstep
    exact absurd hstep (by simp [planStep])
  | succ fuel ih =>
    intro remaining frontier plan out hstep hnd hrange hI4 hI5 hI1 hI2 hG
    cases frontier with
    | nil =>
      cases remaining with
      | nil =>
        simp only [planStep, Option.some.injEq] at hstep
        exact hstep ▸ hG
      | cons r0 rrest =>
        simp only [planStep] at hstep
        have hsrem : choose (r0 :: rrest) ∈ r0 :: rrest := hch _ (by simp)
        refine ih (r0 :: rrest) [choose (r0 :: rrest)] plan out hstep hnd hrange hI4 hI5
          ?_ ?_ hG
        · intro w hw
          have hweq : w = choose (r0 :: rrest) := by simpa using hw
          subst hweq
          exact Or.inr ⟨rfl, fun hwp => hI5 _ hwp hsrem, hsrem⟩
        · intro u hu w hw
          rcases hI2 u hu w hw with hwn | hwf
          · exact Or.inl hwn
          · exact absurd hwf (List.not_mem_nil w)
    | cons r rest =>
      simp only [planStep] at hstep
      -- invariants for the popped state
      have hrem2nd : (remaining.erase r).Nodup := hnd.erase r
      have hrange2 : ∀ v ∈ remaining.erase r, v < n :=
        fun v hv => hrange v (List.mem_of_mem_erase hv)
      have hrnotrem2 : r ∉ remaining.erase r :=
        fun hmem => ((List.Nodup.mem_erase_iff hnd).mp hmem).1 rfl
      have hI42 : ∀ v, v < n → v ∈ remaining.erase r ∨ v ∈ plan ++ [r] := by
        intro v hv
        rcases hI4 v hv with hvr | hvp
        · by_cases hveq : v = r
          · exact Or.inr (by rw [hveq]; simp)
          · exact Or.inl ((List.mem_erase_of_ne hveq).mpr hvr)
        · exact Or.inr (List.mem_append_left _ hvp)
      have hI52 : ∀ u ∈ plan ++ [r], u ∉ remaining.erase r := by
        intro u hu
        rcases List.mem_append.mp hu with hup | hur
        · exact fun hmem => hI5 u hup (List.mem_of_mem_erase hmem)
        · rw [List.mem_singleton] at hur
          exact hur ▸ hrnotrem2
      have hI12 : ∀ w ∈ (((g.neighbours r).filter
            fun nn => (remaining.erase r).contains nn).reverse ++ rest),
          (∃ u ∈ plan ++ [r], w ∈ g.neighbours u) ∨
          ((((g.neighbours r).filter fun nn => (remaining.erase r).contains nn).reverse ++ rest)
              = [w] ∧ w ∉ plan ++ [r] ∧ w ∈ remaining.erase r) := by
        intro w hw
        rcases List.mem_append.mp hw with hwp | hwr
        · rw [List.mem_reverse, List.mem_filter] at hwp
          exact Or.inl ⟨r, by simp, hwp.1⟩
        · rcases hI1 w (List.mem_cons_of_mem r hwr) with ⟨u, hu, hnb⟩ | ⟨hfr, _, _⟩
          · exact Or.inl ⟨u, List.mem_append_left _ hu, hnb⟩
          · injection hfr with h1 h2
            exact absurd (h2 ▸ hwr) (List.not_mem_nil w)
      have hI22 : ∀ u ∈ plan ++ [r], ∀ w, w ∈ g.neighbours u →
          w ∉ remaining.erase r ∨
          w ∈ (((g.neighbours r).filter fun nn => (remaining.erase r).contains nn).reverse
            ++ rest) := by
        intro u hu w hw
        rcases List.mem_append.mp hu with hup | hur
        · rcases hI2 u hup w hw with hwn | hwf
          · exact Or.inl (fun hmem => hwn (List.mem_of_mem_erase hmem))
          · rcases List.mem_cons.mp hwf with hwreq | hwrest
            · exact Or.inl (hwreq ▸ hrnotrem2)
            · exact Or.inr (List.mem_append_right _ hwrest)
        · rw [List.mem_singleton] at hur
          subst hur
          by_cases hwr : w ∈ remaining.erase u
          · refine Or.inr (List.mem_append_left _ ?_)
            rw [List.mem_reverse, List.mem_filter]
            exact ⟨hw, by simp [hwr]⟩
          · exact Or.inl hwr
      have hG2 : planGood g (plan ++ [r]) := by
        intro k hk
        rw [List.length_append, List.length_singleton] at hk
        rcases Nat.lt_succ_iff_lt_or_eq.mp hk with hk1 | hk1
        · rcases hG k hk1 with ⟨j, hj, hnb⟩ | hnr
          · refine Or.inl ⟨j, hj, ?_⟩
            rw [List.getD_append _ _ _ _ (Nat.lt_trans hj hk1),
              List.getD_append _ _ _ _ hk1]
            exact hnb
          · refine Or.inr fun j hj => ?_
            rw [List.getD_append _ _ _ _ (Nat.lt_trans hj hk1),
              List.getD_append _ _ _ _ hk1]
            exact hnr j hj
        · subst hk1
          by_cases hex : ∃ u ∈ plan, r ∈ g.neighbours u
          · obtain ⟨u, hu, hnb⟩ := hex
            obtain ⟨j, hjlt, hju⟩ := List.mem_iff_getElem.mp hu
            refine Or.inl ⟨j, hjlt, ?_⟩
            rw [List.getD_append _ _ _ _ hjlt, getD_concat_length,
              List.getD_eq_getElem _ _ hjlt, hju]
            exact hnb
          · rcases hI1 r (by simp) with hex2 | ⟨hfr, hrplan, _⟩
            · exact absurd hex2 hex
            · have hrest : rest = [] := by
                injection hfr
              subst hrest
              refine Or.inr fun j hj hreach => ?_
              rw [List.getD_append _ _ _ _ hj, getD_concat_length] at hreach
              have hjmem : plan.getD j 0 ∈ plan := by
                rw [List.getD_eq_getElem _ _ hj]
                exact List.getElem_mem hj
              have habs : ∀ u, u ∈ plan → ∀ y,
                  Relation.ReflTransGen (fun x y2 => y2 ∈ g.neighbours x) u y →
                  y ∈ plan ∨ ∃ x, x ∈ plan ∧ y ∈ g.neighbours x := by
                intro u hu y hy
                induction hy with
                | refl => exact Or.inl hu
                | tail hprev hbc ihab =>
                  rcases ihab with hb | ⟨x, hx, hbx⟩
                  · exact Or.inr ⟨_, hb, hbc⟩
                  · rcases hI2 x hx _ hbx with hbnr | hbf
                    · have hbn := (hbound x _ hbx).2
                      rcases hI4 _ hbn with hbrem | hbplan
                      · exact absurd hbrem hbnr
                      · exact Or.inr ⟨_, hbplan, hbc⟩
                    · have hbr2 := by simpa using hbf
                      exact absurd ⟨x, hx, hbr2 ▸ hbx⟩ hex
              rcases habs _ hjmem r hreach with hrp | hexr
              · exact hrplan hrp
              · exact hex hexr
      exact ih (remaining.erase r)
        (((g.neighbours r).filter fun nn => (remaining.erase r).contains nn).reverse ++ rest)
        (plan ++ [r]) out hstep hrem2nd hrange2 hI42 hI52 hI12 hI22 hG2

/-- C4: in every terminating run of `Planner::plan` over any sequence of added
relations, every planned position other than the first of its connected
component — i.e. every position preceded by some same-component position — is
preceded by a position whose relation shares a column name with its own
relation.  (Positions are used as relation identities; the claim holds even
for the duplicate emissions of the missing-skip bug, as a duplicated position
is always pushed as a neighbour of an earlier planned position.) -/
theorem c4_plan_validity (rels : List Relation) (choose : List Nat → Nat)
    (hch : validChoose choose) (fuel : Nat) (out : List Nat)
    (hplan : (mkPlanner rels).planIndices choose fuel = some out)
    (k : Nat) (hk : k < out.length)
    (hnotfirst : ∃ j, j < k ∧
      (mkPlanner rels).query_graph.reaches (out.getD j 0) (out.getD k 0)) :
    ∃ j, j < k ∧ sharesColumn (rels.getD (out.getD j 0) default)
      (rels.getD (out.getD k 0) default) := by
  have hbound : ∀ v w, w ∈ (mkPlanner rels).query_graph.neighbours v →
      v < rels.length ∧ w < rels.length := by
    intro v w hw
    have hc := (mkPlanner_graph_char rels v w).mp hw
    exact ⟨hc.2.1, hc.2.2.1⟩
  have hstep : planStep (mkPlanner rels).query_graph choose fuel
      (List.range rels.length) [] [] = some out := by
    unfold Planner.planIndices at hplan
    rw [mkPlanner_tables] at hplan
    exact hplan
  have hgood : planGood (mkPlanner rels).query_graph out := by
    refine planStep_good (mkPlanner rels).query_graph rels.length hbound choose hch
      fuel (List.range rels.length) [] [] out hstep (List.nodup_range rels.length)
      (fun v hv => List.mem_range.mp hv) (fun v hv => Or.inl (List.mem_range.mpr hv))
      (by simp) (by simp) (by simp) ?_
    intro k2 hk2
    exact absurd hk2 (by simp)
  rcases hgood k hk with ⟨j, hj, hnb⟩ | hnone
  · have hc := (mkPlanner_graph_char rels (out.getD j 0) (out.getD k 0)).mp hnb
    exact ⟨j, hj, hc.2.2.2⟩
  · obtain ⟨j, hj, hreach⟩ := hnotfirst
    exact absurd hreach (hnone j hj)

/-- C4 witness: the validity statement applied to a concrete two-relation
planner whose plan is `[0, 1]`, at the second planned position. -/
theorem c4_witness :
    validChoose (fun l => l.headD 0) ∧
    (mkPlanner [Relation.new ["a", "b"], Relation.new ["b", "c"]]).planIndices
      (fun l => l.headD 0) 10 = some [0, 1] ∧
    ∃ j, j < 1 ∧ sharesColumn
      ([Relation.new ["a", "b"], Relation.new ["b", "c"]].getD
        (([0, 1] : List Nat).getD j 0) default)
      ([Relation.new ["a", "b"], Relation.new ["b", "c"]].getD
        (([0, 1] : List Nat).getD 1 0) default) := by
  have hv : validChoose (fun l => l.headD 0) := by
    intro l hl
    cases l with
    | nil => exact absurd rfl hl
    | cons a t => simp [List.headD]
  have hplan : (mkPlanner [Relation.new ["a", "b"], Relation.new ["b", "c"]]).planIndices
      (fun l => l.headD 0) 10 = some [0, 1] := by decide
  refine ⟨hv, hplan, ?_⟩
  refine c4_plan_validity [Relation.new ["a", "b"], Relation.new ["b", "c"]]
    (fun l => l.headD 0) hv 10 [0, 1] hplan 1 (by decide) ⟨0, by decide, ?_⟩
  show (mkPlanner [Relation.new ["a", "b"], Relation.new ["b", "c"]]).query_graph.reaches 0 1
  unfold Graph.reaches
  refine Relation.ReflTransGen.single ?_
  show (1 : Nat) ∈ (mkPlanner [Relation.new ["a", "b"], Relation.new ["b", "c"]]).query_graph.neighbours 0
  decide
